import Mathlib

/-!
Verification of the calc expression-compiler front end: a shallow embedding
of the lexer, recursive-descent parser, semantic checker, code generator and
driver, followed by theorems about the claims of the specification.

Conventions of the embedding:
* the character buffer is a list of characters; the C string terminator is
  modelled by treating a NUL character as end of input, as the lexer does;
* nullable node pointers are modelled by the dedicated constructor
  Expr.nullE; a null AST root is Option.none;
* the mutually recursive parser functions take a fuel argument; running out
  of fuel is recorded in the parser state (outOfFuel) and never happens for
  the inputs considered, as the theorems show;
* IRBuilder calls are modelled as emitting one instruction each into the
  entry block; values are constants, instruction references, the null
  value (a StringMap lookup miss) or an unspecified value (a failed
  getAsInteger call, whose output the source ignores).
-/

namespace Calc

/-! ## Tokens (Lexer.h) -/

inductive TokenKind where
  | eoi
  | unknown
  | ident
  | number
  | comma
  | colon
  | plus
  | minus
  | star
  | slash
  | l_paren
  | r_paren
  | KW_with
deriving DecidableEq, Repr

structure Token where
  kind : TokenKind
  text : String
deriving DecidableEq, Repr

/-! ## Character classification (charinfo namespace in the lexer) -/

def isWhitespace (c : Char) : Bool :=
  c = ' ' || c = '\t' || c = '\u000C' || c = '\u000B' || c = '\r' || c = '\n'

def isDigit (c : Char) : Bool :=
  '0' ≤ c && c ≤ '9'

def isLetter (c : Char) : Bool :=
  ('a' ≤ c && c ≤ 'z') || ('A' ≤ c && c ≤ 'Z')

/-! ## Lexer::next -/

/-- The whitespace-skipping loop: advance while the current character is
not the NUL terminator and is whitespace. -/
def skipWs : List Char → List Char
  | [] => []
  | c :: rest => if c ≠ '\u0000' && isWhitespace c then skipWs rest else c :: rest

/-- The maximal-run scanning loop (while p holds, advance the end pointer);
returns the scanned run and the rest of the buffer. -/
def scanWhile (p : Char → Bool) : List Char → List Char × List Char
  | [] => ([], [])
  | c :: rest =>
    if p c then
      let (run, rem) := scanWhile p rest
      (c :: run, rem)
    else ([], c :: rest)

/-- Lexer::next, translated from the source: skip whitespace; NUL or buffer
end yields eoi; a letter starts a maximal letter run, compared against the
keyword; a digit starts a maximal digit run; the punctuation switch maps
single characters; anything else is an unknown token. -/
def nextTok (buf : List Char) : Token × List Char :=
  match skipWs buf with
  | [] => (⟨.eoi, ""⟩, [])
  | c :: rest =>
    if c = '\u0000' then (⟨.eoi, ""⟩, c :: rest)
    else if isLetter c then
      let (run, rem) := scanWhile isLetter rest
      let name := String.mk (c :: run)
      (⟨if name = "with" then .KW_with else .ident, name⟩, rem)
    else if isDigit c then
      let (run, rem) := scanWhile isDigit rest
      (⟨.number, String.mk (c :: run)⟩, rem)
    else
      match c with
      | '+' => (⟨.plus, String.mk [c]⟩, rest)
      | '-' => (⟨.minus, String.mk [c]⟩, rest)
      | '*' => (⟨.star, String.mk [c]⟩, rest)
      | '/' => (⟨.slash, String.mk [c]⟩, rest)
      | '(' => (⟨.l_paren, String.mk [c]⟩, rest)
      | ')' => (⟨.r_paren, String.mk [c]⟩, rest)
      | ':' => (⟨.colon, String.mk [c]⟩, rest)
      | ',' => (⟨.comma, String.mk [c]⟩, rest)
      | _ => (⟨.unknown, String.mk [c]⟩, rest)

/-- The lexer contract in the words of the specification, for comparison
with the translated nextTok: after skipping whitespace, the buffer end
yields end-of-input; a letter yields the keyword exactly when the maximal
letter run equals with and an identifier otherwise; a digit yields a
number for the maximal digit run; the eight punctuation characters map to
their tokens; any other character yields an unknown token. -/
def nextSpec (buf : List Char) : Token × List Char :=
  match buf.dropWhile isWhitespace with
  | [] => (⟨.eoi, ""⟩, [])
  | c :: rest =>
    if isLetter c then
      (⟨if String.mk ((c :: rest).takeWhile isLetter) = "with" then .KW_with
        else .ident,
        String.mk ((c :: rest).takeWhile isLetter)⟩,
       (c :: rest).dropWhile isLetter)
    else if isDigit c then
      (⟨.number, String.mk ((c :: rest).takeWhile isDigit)⟩,
       (c :: rest).dropWhile isDigit)
    else
      match c with
      | '+' => (⟨.plus, String.mk [c]⟩, rest)
      | '-' => (⟨.minus, String.mk [c]⟩, rest)
      | '*' => (⟨.star, String.mk [c]⟩, rest)
      | '/' => (⟨.slash, String.mk [c]⟩, rest)
      | '(' => (⟨.l_paren, String.mk [c]⟩, rest)
      | ')' => (⟨.r_paren, String.mk [c]⟩, rest)
      | ':' => (⟨.colon, String.mk [c]⟩, rest)
      | ',' => (⟨.comma, String.mk [c]⟩, rest)
      | _ => (⟨.unknown, String.mk [c]⟩, rest)

/-- Repeatedly pull tokens until eoi; the driver-visible token stream.
The fuel is sufficient because every non-eoi token consumes at least one
character. -/
def tokenizeAux : Nat → List Char → List Token
  | 0, _ => []
  | fuel + 1, buf =>
    let (t, rest) := nextTok buf
    if t.kind = .eoi then [] else t :: tokenizeAux fuel rest

def tokenize (s : String) : List Token :=
  tokenizeAux (s.toList.length + 1) s.toList

/-! ## AST (AST.h, reconstructed from its uses in the given sources):
Factor nodes carry a kind (number or identifier) and the token text;
BinaryOp nodes carry an operator and two child pointers, which may be
null after error recovery (constructor nullE models a null Expr pointer);
a program root is either a bare expression or a WithDecl node. -/

inductive FactorKind where
  | number
  | ident
deriving DecidableEq, Repr

inductive BOp where
  | plus
  | minus
  | mul
  | div
deriving DecidableEq, Repr

inductive Expr where
  | nullE : Expr
  | factor : FactorKind → String → Expr
  | binaryOp : BOp → Expr → Expr → Expr
deriving DecidableEq, Repr

inductive AST where
  | expr : Expr → AST
  | withDecl : List String → Expr → AST
deriving DecidableEq, Repr

/-! ## Parser -/

structure PState where
  toks : List Token
  hasError : Bool
  outOfFuel : Bool
deriving DecidableEq, Repr

def eoiTok : Token := ⟨.eoi, ""⟩

/-- The current token; past the end of the stream the lexer yields eoi
forever. -/
def cur (s : PState) : Token := s.toks.headD eoiTok

def curKind (s : PState) : TokenKind := (cur s).kind

def advance (s : PState) : PState := { s with toks := s.toks.tail }

/-- Parser::error(): report and set the persistent failure flag. -/
def setErr (s : PState) : PState := { s with hasError := true }

def noFuel (s : PState) : PState := { s with outOfFuel := true }

/-- The synchronizing token kinds of the factor-level recovery loop. -/
def syncKinds : List TokenKind := [.r_paren, .star, .plus, .minus, .slash, .eoi]

/-- The factor-level panic recovery: advance while the current token is not
a synchronizing token (an empty stream reads as eoi, which synchronizes). -/
def skipToSync : List Token → List Token
  | [] => []
  | t :: rest => if t.kind ∈ syncKinds then t :: rest else skipToSync rest

/-- The top-level recovery of parseCalc: advance while the current token is
not eoi. -/
def skipToEoi : List Token → List Token
  | [] => []
  | t :: rest => if t.kind = .eoi then t :: rest else skipToEoi rest

def resyncFactor (s : PState) : PState := { s with toks := skipToSync s.toks }

def resyncEoi (s : PState) : PState := { s with toks := skipToEoi s.toks }

mutual

/-- Parser::parseExpr: a term followed by a left fold over plus and minus. -/
def parseExpr : Nat → PState → Expr × PState
  | 0, s => (.nullE, noFuel s)
  | fuel + 1, s =>
    let (left, s1) := parseTerm fuel s
    parseExprLoop fuel left s1

/-- The while loop of parseExpr. -/
def parseExprLoop : Nat → Expr → PState → Expr × PState
  | 0, left, s => (left, noFuel s)
  | fuel + 1, left, s =>
    match curKind s with
    | .plus =>
      let (right, s2) := parseTerm fuel (advance s)
      parseExprLoop fuel (.binaryOp .plus left right) s2
    | .minus =>
      let (right, s2) := parseTerm fuel (advance s)
      parseExprLoop fuel (.binaryOp .minus left right) s2
    | _ => (left, s)

/-- Parser::parseTerm: a factor followed by a left fold over star and
slash. -/
def parseTerm : Nat → PState → Expr × PState
  | 0, s => (.nullE, noFuel s)
  | fuel + 1, s =>
    let (left, s1) := parseFactor fuel s
    parseTermLoop fuel left s1

/-- The while loop of parseTerm. -/
def parseTermLoop : Nat → Expr → PState → Expr × PState
  | 0, left, s => (left, noFuel s)
  | fuel + 1, left, s =>
    match curKind s with
    | .star =>
      let (right, s2) := parseFactor fuel (advance s)
      parseTermLoop fuel (.binaryOp .mul left right) s2
    | .slash =>
      let (right, s2) := parseFactor fuel (advance s)
      parseTermLoop fuel (.binaryOp .div left right) s2
    | _ => (left, s)

/-- Parser::parseFactor: number, identifier, or parenthesized expression.
A missing closing parenthesis records an error (inside consume) and falls
through to the default recovery; the default case records an error when no
node was built (Res is null) and resynchronizes. -/
def parseFactor : Nat → PState → Expr × PState
  | 0, s => (.nullE, noFuel s)
  | fuel + 1, s =>
    match curKind s with
    | .number => (.factor .number (cur s).text, advance s)
    | .ident => (.factor .ident (cur s).text, advance s)
    | .l_paren =>
      let (res, s2) := parseExpr fuel (advance s)
      if curKind s2 = .r_paren then (res, advance s2)
      else
        -- consume(r_paren) failed: expect() recorded the error; control
        -- falls through to the default case with a non-null or null Res;
        -- the second error() call there fires only when Res is null and
        -- only re-sets the already-set flag.
        (res, resyncFactor (setErr s2))
    | _ => (.nullE, resyncFactor (setErr s))

end

/-- The while loop collecting comma-separated declared names. On a missing
identifier after a comma it records the error; the caller then performs the
top-level recovery. -/
def parseVarsLoop : Nat → List String → PState → Option (List String) × PState
  | 0, _, s => (none, noFuel s)
  | fuel + 1, acc, s =>
    if curKind s = .comma then
      let s1 := advance s
      if curKind s1 = .ident then
        parseVarsLoop fuel (acc ++ [(cur s1).text]) (advance s1)
      else (none, setErr s1)
    else (some acc, s)

/-- The tail of parseCalc: parse the expression, require eoi, and build the
root node; a null expression with no declared names returns a null root. -/
def parseCalcBody (fuel : Nat) (vars : List String) (s : PState) :
    Option AST × PState :=
  let (e, s1) := parseExpr fuel s
  if curKind s1 = .eoi then
    if vars.isEmpty then
      (match e with
       | .nullE => none
       | _ => some (.expr e), s1)
    else (some (.withDecl vars e), s1)
  else (none, resyncEoi (setErr s1))

/-- Parser::parseCalc: an optional with-declaration prefix, then the body.
All error exits first record the error and then discard tokens up to
eoi. -/
def parseCalc (fuel : Nat) (s : PState) : Option AST × PState :=
  if curKind s = .KW_with then
    let s1 := advance s
    if curKind s1 = .ident then
      let s2 := advance s1
      match parseVarsLoop fuel [(cur s1).text] s2 with
      | (some vars, s3) =>
        if curKind s3 = .colon then
          parseCalcBody fuel vars (advance s3)
        else (none, resyncEoi (setErr s3))
      | (none, s3) => (none, resyncEoi s3)
    else (none, resyncEoi (setErr s1))
  else parseCalcBody fuel [] s

/-- Parser::parse: parseCalc followed by a final expect(eoi). -/
def parseTop (fuel : Nat) (toks : List Token) : Option AST × PState :=
  let (res, s1) := parseCalc fuel ⟨toks, false, false⟩
  (res, if curKind s1 = .eoi then s1 else setErr s1)

/-- Fuel that is ample for any token stream: every unit of nesting or loop
iteration consumes at least one token. -/
def fuelFor (toks : List Token) : Nat := 4 * toks.length + 8

/-! ## Semantic checker (Sema.cpp) -/

/-- The diagnostics error() can print: already declared (Twice) or not
declared (Not). -/
inductive SemaDiag where
  | twice : String → SemaDiag
  | notDecl : String → SemaDiag
deriving DecidableEq, Repr

/-- DeclCheck state: the flat scope set of declared names, the printed
diagnostics in order, and the aggregate HasError flag. The StringSet is
modelled as a list used only through membership and insertion. -/
structure SemaState where
  scope : List String
  diags : List SemaDiag
  hasError : Bool
deriving DecidableEq, Repr

/-- DeclCheck::error: print a diagnostic and set the flag. -/
def semaError (st : SemaState) (d : SemaDiag) : SemaState :=
  { st with diags := st.diags ++ [d], hasError := true }

/-- The loop body of DeclCheck::visit(WithDecl): try to insert the name;
if it is already present, report Twice and do not insert. -/
def semaDeclStep (st : SemaState) (v : String) : SemaState :=
  if v ∈ st.scope then semaError st (.twice v)
  else { st with scope := st.scope ++ [v] }

/-- DeclCheck::visit for Factor and BinaryOp nodes. A null child sets the
flag without printing; dispatch on a null node itself never happens
because every caller checks for null first, so the nullE equation is the
identity. -/
def semaExpr : Expr → SemaState → SemaState
  | .nullE, st => st
  | .factor k v, st =>
    if k = .ident then
      if v ∈ st.scope then st else semaError st (.notDecl v)
    else st
  | .binaryOp _ l r, st =>
    let st1 := match l with
      | .nullE => { st with hasError := true }
      | l' => semaExpr l' st
    match r with
    | .nullE => { st1 with hasError := true }
    | r' => semaExpr r' st1

/-- Dispatch on the root: a bare expression, or a WithDecl that first
inserts every declared name in order and then visits its body (a null
body sets the flag). -/
def semaAST : AST → SemaState → SemaState
  | .expr e, st => semaExpr e st
  | .withDecl vars body, st =>
    let st1 := vars.foldl semaDeclStep st
    match body with
    | .nullE => { st1 with hasError := true }
    | b => semaExpr b st1

def semaInit : SemaState := ⟨[], [], false⟩

/-- Sema::semantic: a null tree returns false without any traversal;
otherwise run DeclCheck over the tree and return its HasError flag. -/
def semantic : Option AST → Bool
  | none => false
  | some t => (semaAST t semaInit).hasError

/-! ## Code generator (CodeGen.cpp) -/

/-- An LLVM value as the generator can produce it: a 32-bit integer
constant, the result of an emitted instruction (by its position in the
entry block), the null value a StringMap lookup miss yields, or the
unspecified value left by a failed getAsInteger call (ignored by the
source). -/
inductive Value where
  | constInt : Int → Value
  | instrRef : Nat → Value
  | nullV : Value
  | poison : Value
deriving DecidableEq, Repr

/-- The arithmetic instructions the generator can emit: the no-signed-wrap
add, sub and mul, and the signed (truncating) division. -/
inductive ArithOp where
  | nswAdd
  | nswSub
  | nswMul
  | sdiv
deriving DecidableEq, Repr

/-- One emitted call or instruction in the entry block of main. A read
call carries the variable name whose global string constant it passes. -/
inductive Instr where
  | callRead : String → Instr
  | arith : ArithOp → Value → Value → Instr
  | callWrite : Value → Instr
  | ret : Value → Instr
deriving DecidableEq, Repr

/-- ToIRVisitor state: the instructions emitted so far, the name table,
and the current value V. -/
structure CGState where
  instrs : List Instr
  nameMap : List (String × Value)
  V : Value
deriving DecidableEq, Repr

/-- Emit one value-producing instruction and set V to its result. -/
def emitVal (s : CGState) (i : Instr) : CGState :=
  { s with instrs := s.instrs ++ [i], V := .instrRef s.instrs.length }

/-- Emit one instruction whose result is not assigned to V. -/
def emitOnly (s : CGState) (i : Instr) : CGState :=
  { s with instrs := s.instrs ++ [i] }

def lookupName : List (String × Value) → String → Option Value
  | [], _ => none
  | (k, v) :: rest, n => if k = n then some v else lookupName rest n

/-- StringMap insertion: overwrite an existing binding, else append. -/
def setName (m : List (String × Value)) (k : String) (v : Value) :
    List (String × Value) :=
  match m with
  | [] => [(k, v)]
  | (k0, v0) :: rest => if k0 = k then (k0, v) :: rest else (k0, v0) :: setName rest k v

/-- The operator switch of visit(BinaryOp). -/
def opMap : BOp → ArithOp
  | .plus => .nswAdd
  | .minus => .nswSub
  | .mul => .nswMul
  | .div => .sdiv

def int32Max : Int := 2 ^ 31 - 1

def int32Min : Int := -(2 ^ 31)

def digitVal (c : Char) : Nat := c.toNat - '0'.toNat

def decNatAux : List Char → Nat → Option Nat
  | [], acc => some acc
  | c :: rest, acc => if isDigit c then decNatAux rest (acc * 10 + digitVal c) else none

/-- Base-10 parse of a nonempty digit run, as getAsInteger reads the
token text. -/
def decNat? : List Char → Option Nat
  | [] => none
  | cs => decNatAux cs 0

/-- The constant a literal lowers to: getAsInteger(10, intval) followed by
ConstantInt::get. The source ignores the failure flag of getAsInteger, so
a non-digit text or a value beyond the 32-bit signed range leaves an
unspecified value, modelled by Value.poison. -/
def litValue (text : String) : Value :=
  match decNat? text.toList with
  | some n => if (n : Int) ≤ int32Max then .constInt n else .poison
  | none => .poison

/-- ToIRVisitor::visit for Factor and BinaryOp nodes. An identifier does a
StringMap subscript lookup: a miss inserts and yields the default null
value and generation continues. A BinaryOp evaluates left, then right,
then emits exactly one arithmetic instruction chosen by the operator
switch. Dispatching accept on a null child pointer is a crash, modelled
as none. -/
def cgExpr : Expr → CGState → Option CGState
  | .nullE, _ => none
  | .factor k v, s =>
    if k = .ident then
      match lookupName s.nameMap v with
      | some val => some { s with V := val }
      | none => some { s with nameMap := setName s.nameMap v .nullV, V := .nullV }
    else some { s with V := litValue v }
  | .binaryOp op l r, s =>
    match cgExpr l s with
    | none => none
    | some s1 =>
      match cgExpr r s1 with
      | none => none
      | some s2 => some (emitVal s2 (.arith (opMap op) s1.V s2.V))

/-- The loop body of visit(WithDecl): emit one calc_read call carrying the
name as a string constant, and bind the name to the call result. -/
def cgReadStep (s : CGState) (v : String) : CGState :=
  let s1 := emitVal s (.callRead v)
  { s1 with nameMap := setName s1.nameMap v s1.V }

/-- Dispatch on the root: a bare expression, or a WithDecl that reads every
declared name in order and then evaluates its body (accept on a null body
is a crash). -/
def cgAST : AST → CGState → Option CGState
  | .expr e, s => cgExpr e s
  | .withDecl vars body, s => cgExpr body (vars.foldl cgReadStep s)

/-- The generated unit: the name of the entry function and the
instructions of its entry block. -/
structure Program where
  fname : String
  instrs : List Instr
deriving DecidableEq, Repr

def cgInit : CGState := ⟨[], [], .nullV⟩

/-- ToIRVisitor::run: create main, visit the tree, emit one calc_write
call with the final value, and return the constant 0. -/
def cgRun (t : AST) : Option Program :=
  match cgAST t cgInit with
  | none => none
  | some s =>
    let s1 := emitOnly s (.callWrite s.V)
    let s2 := emitOnly s1 (.ret (.constInt 0))
    some ⟨"main", s2.instrs⟩

/-! ## Execution semantics of the generated unit.
Modelled from the spec: the LLVM arithmetic primitives are external to the
repository. The no-signed-wrap operations have no defined wrapped result
on signed overflow, signed division truncates toward zero and has no
defined result for a zero divisor or for the one overflowing quotient;
calc_read yields the externally supplied input for its name and calc_write
records the written value. -/

def inInt32 (n : Int) : Bool := int32Min ≤ n && n ≤ int32Max

def evalArith : ArithOp → Int → Int → Option Int
  | .nswAdd, a, b => if inInt32 (a + b) then some (a + b) else none
  | .nswSub, a, b => if inInt32 (a - b) then some (a - b) else none
  | .nswMul, a, b => if inInt32 (a * b) then some (a * b) else none
  | .sdiv, a, b =>
    if b = 0 then none
    else if a = int32Min ∧ b = -1 then none
    else some (a.tdiv b)

def evalValue (results : List (Option Int)) : Value → Option Int
  | .constInt n => some n
  | .instrRef i => results.getD i none
  | .nullV => none
  | .poison => none

structure ExecResult where
  written : List Int
  retVal : Int
deriving DecidableEq, Repr

def execInstrs (inputs : String → Int) :
    List Instr → List (Option Int) → List Int → Option ExecResult
  | [], _, _ => none
  | i :: rest, results, written =>
    match i with
    | .callRead name => execInstrs inputs rest (results ++ [some (inputs name)]) written
    | .arith op l r =>
      match evalValue results l, evalValue results r with
      | some a, some b =>
        match evalArith op a b with
        | some v => execInstrs inputs rest (results ++ [some v]) written
        | none => none
      | _, _ => none
    | .callWrite v =>
      match evalValue results v with
      | some a => execInstrs inputs rest (results ++ [none]) (written ++ [a])
      | none => none
    | .ret v =>
      match evalValue results v with
      | some a => some ⟨written, a⟩
      | none => none

def execProgram (inputs : String → Int) (p : Program) : Option ExecResult :=
  execInstrs inputs p.instrs [] []

/-! ## Driver (the main function) -/

structure DriverResult where
  exit : Nat
  ranCodegen : Bool
deriving DecidableEq, Repr

/-- The main function: parse; a null tree or the parser failure flag exits
with 1; a semantic error exits with 1; otherwise code generation runs and
main returns 0. -/
def driver (toks : List Token) : DriverResult :=
  match parseTop (fuelFor toks) toks with
  | (none, _) => ⟨1, false⟩
  | (some t, ps) =>
    if ps.hasError then ⟨1, false⟩
    else if semantic (some t) then ⟨1, false⟩
    else ⟨0, true⟩

def driverStr (s : String) : DriverResult := driver (tokenize s)

/-- The full pipeline with the gating of the driver, returning the
generated unit when all phases are clean. -/
def compileStr (s : String) : Option Program :=
  let toks := tokenize s
  match parseTop (fuelFor toks) toks with
  | (none, _) => none
  | (some t, ps) =>
    if ps.hasError then none
    else if semantic (some t) then none
    else cgRun t

/-- Compile and execute with the given external inputs. -/
def runStr (s : String) (inputs : String → Int) : Option ExecResult :=
  (compileStr s).bind (execProgram inputs)

/-- The AST of the body of the example program with a, b: a*b - a/b. -/
def exampleBody : Expr :=
  .binaryOp .minus
    (.binaryOp .mul (.factor .ident "a") (.factor .ident "b"))
    (.binaryOp .div (.factor .ident "a") (.factor .ident "b"))

/-- The unit the generator produces for with a, b: a*b - a/b. -/
def exampleProg : Program :=
  ⟨"main",
   [.callRead "a", .callRead "b",
    .arith .nswMul (.instrRef 0) (.instrRef 1),
    .arith .sdiv (.instrRef 0) (.instrRef 1),
    .arith .nswSub (.instrRef 2) (.instrRef 3),
    .callWrite (.instrRef 4), .ret (.constInt 0)]⟩

/-! ## Helper lemmas -/

theorem skipWs_eq_dropWhile (l : List Char) :
    skipWs l = l.dropWhile isWhitespace := by
  induction l with
  | nil => rfl
  | cons c rest ih =>
    unfold skipWs
    rw [List.dropWhile_cons]
    by_cases h0 : c = '\u0000'
    · subst h0
      have hw : isWhitespace '\u0000' = false := by decide
      simp [hw]
    · by_cases hw : isWhitespace c
      · simp [h0, hw, ih]
      · simp [h0, hw]

theorem scanWhile_eq (p : Char → Bool) (l : List Char) :
    scanWhile p l = (l.takeWhile p, l.dropWhile p) := by
  induction l with
  | nil => rfl
  | cons c rest ih =>
    unfold scanWhile
    by_cases hc : p c
    · simp [hc, ih, List.takeWhile_cons, List.dropWhile_cons]
    · simp [hc, List.takeWhile_cons, List.dropWhile_cons]

theorem skipToSync_suffix (toks : List Token) : skipToSync toks <:+ toks := by
  induction toks with
  | nil => exact List.suffix_refl _
  | cons t rest ih =>
    unfold skipToSync
    split
    · exact List.suffix_refl _
    · exact ih.trans (List.suffix_cons t rest)

theorem skipToSync_stops (toks : List Token) :
    ((skipToSync toks).headD eoiTok).kind ∈ syncKinds := by
  induction toks with
  | nil => decide
  | cons t rest ih =>
    unfold skipToSync
    split
    · assumption
    · exact ih

theorem skipToEoi_suffix (toks : List Token) : skipToEoi toks <:+ toks := by
  induction toks with
  | nil => exact List.suffix_refl _
  | cons t rest ih =>
    unfold skipToEoi
    split
    · exact List.suffix_refl _
    · exact ih.trans (List.suffix_cons t rest)

theorem skipToEoi_stops (toks : List Token) :
    ((skipToEoi toks).headD eoiTok).kind = .eoi := by
  induction toks with
  | nil => rfl
  | cons t rest ih =>
    unfold skipToEoi
    split
    · assumption
    · exact ih

@[simp] theorem semaError_scope (st : SemaState) (d : SemaDiag) :
    (semaError st d).scope = st.scope := rfl

@[simp] theorem semaError_diags (st : SemaState) (d : SemaDiag) :
    (semaError st d).diags = st.diags ++ [d] := rfl

theorem semaDecl_scope_mem (vars : List String) (st : SemaState) (v : String) :
    v ∈ (vars.foldl semaDeclStep st).scope ↔ v ∈ st.scope ∨ v ∈ vars := by
  induction vars generalizing st with
  | nil => simp
  | cons u vs ih =>
    rw [List.foldl_cons, ih]
    by_cases hu : u ∈ st.scope
    · simp only [semaDeclStep, if_pos hu, semaError_scope, List.mem_cons]
      constructor
      · rintro (h | h)
        · exact Or.inl h
        · exact Or.inr (Or.inr h)
      · rintro (h | rfl | h)
        · exact Or.inl h
        · exact Or.inl hu
        · exact Or.inr h
    · simp only [semaDeclStep, if_neg hu, List.mem_append, List.mem_singleton,
        List.mem_cons]
      tauto

theorem semaDecl_scope_count (vars : List String) (st : SemaState) (v : String) :
    (vars.foldl semaDeclStep st).scope.count v =
      st.scope.count v + (if v ∈ vars ∧ v ∉ st.scope then 1 else 0) := by
  induction vars generalizing st with
  | nil => simp
  | cons u vs ih =>
    rw [List.foldl_cons, ih]
    by_cases hu : u ∈ st.scope <;> by_cases hv : v = u <;>
      simp only [semaDeclStep, hu, hv, if_true, if_false, ite_true, ite_false,
        semaError_scope, List.count_append, List.count_cons, List.count_nil,
        List.mem_append, List.mem_singleton, List.mem_cons] <;>
      split_ifs <;> simp_all <;> omega

theorem semaDecl_diag_count (vars : List String) (st : SemaState) (v : String) :
    (vars.foldl semaDeclStep st).diags.count (.twice v) =
      st.diags.count (.twice v) +
        (if v ∈ st.scope then vars.count v else vars.count v - 1) := by
  induction vars generalizing st with
  | nil => simp
  | cons u vs ih =>
    rw [List.foldl_cons, ih]
    by_cases hu : u ∈ st.scope <;> by_cases hv : v = u <;>
      simp only [semaDeclStep, hu, hv, if_true, if_false, ite_true, ite_false,
        semaError_scope, semaError_diags, List.count_append, List.count_cons,
        List.count_nil, List.mem_append, List.mem_singleton, List.mem_cons,
        SemaDiag.twice.injEq] <;>
      split_ifs <;> simp_all <;> omega

/-- Expression code generation only appends instructions, and everything it
appends is an arithmetic instruction (never a read, write or return). -/
theorem cgExpr_instrs_extend (e : Expr) (s s' : CGState)
    (h : cgExpr e s = some s') :
    ∃ tail, s'.instrs = s.instrs ++ tail ∧
      ∀ i ∈ tail, ∃ op a b, i = Instr.arith op a b := by
  induction e generalizing s s' with
  | nullE => simp [cgExpr] at h
  | factor k v =>
    refine ⟨[], ?_, by simp⟩
    unfold cgExpr at h
    split at h
    · split at h
      · cases h
        simp
      · cases h
        simp
    · cases h
      simp
  | binaryOp op l r ihl ihr =>
    unfold cgExpr at h
    cases hl : cgExpr l s with
    | none => rw [hl] at h; simp at h
    | some s1 =>
      rw [hl] at h
      dsimp only at h
      cases hr : cgExpr r s1 with
      | none => rw [hr] at h; simp at h
      | some s2 =>
        rw [hr] at h
        dsimp only at h
        simp only [Option.some.injEq] at h
        subst h
        obtain ⟨t1, ht1, ha1⟩ := ihl s s1 hl
        obtain ⟨t2, ht2, ha2⟩ := ihr s1 s2 hr
        refine ⟨t1 ++ t2 ++ [.arith (opMap op) s1.V s2.V], ?_, ?_⟩
        · simp [emitVal, ht2, ht1]
        · intro i hi
          rcases List.mem_append.mp hi with hi | hi
          · rcases List.mem_append.mp hi with hi | hi
            · exact ha1 i hi
            · exact ha2 i hi
          · rw [List.mem_singleton.mp hi]
            exact ⟨opMap op, s1.V, s2.V, rfl⟩

/-- The declaration loop emits exactly the read calls for the declared
names, in declaration order. -/
theorem cgReads_instrs (vars : List String) (s : CGState) :
    (vars.foldl cgReadStep s).instrs = s.instrs ++ vars.map Instr.callRead := by
  induction vars generalizing s with
  | nil => simp
  | cons u vs ih =>
    rw [List.foldl_cons, ih]
    simp [cgReadStep, emitVal]

theorem count_callRead_map (vars : List String) (n : String) :
    (vars.map Instr.callRead).count (.callRead n) = vars.count n := by
  induction vars with
  | nil => rfl
  | cons u vs ih =>
    simp [List.count_cons, ih]

/-! ## Claim theorems -/

/-- C2: for a Declaration root the generator emits one read call per
declared name, in declaration order, each carrying that name as its string
constant; the body contributes only arithmetic instructions after them;
exactly one write call follows whose argument is the final value-handle of
evaluating the root (the V of the state the root visit produced), inside
the entry function main, which ends by returning the success status 0; and
for distinct (validated) names each read call appears exactly once. -/
theorem c2_withdecl_codegen (vars : List String) (body : Expr) (prog : Program)
    (h : cgRun (.withDecl vars body) = some prog) :
    prog.fname = "main" ∧
    (∃ s tail,
      cgAST (.withDecl vars body) cgInit = some s ∧
      prog.instrs =
        vars.map Instr.callRead ++ tail ++ [.callWrite s.V, .ret (.constInt 0)] ∧
      (∀ i ∈ tail, ∃ op a b, i = Instr.arith op a b)) ∧
    (vars.Nodup → ∀ n ∈ vars, prog.instrs.count (.callRead n) = 1) := by
  unfold cgRun at h
  cases hc : cgAST (.withDecl vars body) cgInit with
  | none => rw [hc] at h; simp at h
  | some s =>
    rw [hc] at h
    dsimp only at h
    simp only [Option.some.injEq] at h
    subst h
    have hc' : cgExpr body (vars.foldl cgReadStep cgInit) = some s := hc
    obtain ⟨tail, ht, ha⟩ := cgExpr_instrs_extend body _ s hc'
    rw [cgReads_instrs] at ht
    simp only [cgInit, List.nil_append] at ht
    refine ⟨rfl, ⟨s, tail, rfl, ?_, ha⟩, ?_⟩
    · simp [emitOnly, ht]
    · intro hnd n hn
      have hcount : (vars.map Instr.callRead).count (Instr.callRead n) = 1 := by
        rw [count_callRead_map]
        exact List.count_eq_one_of_mem hnd hn
      have htail : tail.count (Instr.callRead n) = 0 := by
        rw [List.count_eq_zero]
        intro hmem
        obtain ⟨op, a, b, he⟩ := ha _ hmem
        simp at he
      simp [emitOnly, ht, List.count_append, hcount, htail, List.count_cons]

theorem c2_witness :
    exampleProg.fname = "main" ∧
    (∃ s tail,
      cgAST (.withDecl ["a", "b"] exampleBody) cgInit = some s ∧
      exampleProg.instrs =
        ["a", "b"].map Instr.callRead ++ tail ++ [.callWrite s.V, .ret (.constInt 0)] ∧
      (∀ i ∈ tail, ∃ op a b, i = Instr.arith op a b)) ∧
    (["a", "b"].Nodup → ∀ n ∈ ["a", "b"],
      exampleProg.instrs.count (.callRead n) = 1) :=
  c2_withdecl_codegen ["a", "b"] exampleBody exampleProg (by rfl)

/-- C6: the declaration visit inserts names in declaration order without
re-inserting: a name is in the resulting scope exactly when it was already
there or is declared, an insertion happens only for the first occurrence of
a new name (the count formula), a duplicate occurrence records exactly one
DuplicateDeclaration diagnostic per repetition without aborting the pass
(the diagnostic count formula), and checking with x, x: x reports exactly
one DuplicateDeclaration for x and no other diagnostic. -/
theorem c6_duplicate_declaration_handling :
    (∀ (vars : List String) (st : SemaState) (v : String),
      v ∈ (vars.foldl semaDeclStep st).scope ↔ v ∈ st.scope ∨ v ∈ vars) ∧
    (∀ (vars : List String) (st : SemaState) (v : String),
      (vars.foldl semaDeclStep st).scope.count v =
        st.scope.count v + (if v ∈ vars ∧ v ∉ st.scope then 1 else 0)) ∧
    (∀ (vars : List String) (st : SemaState) (v : String),
      (vars.foldl semaDeclStep st).diags.count (.twice v) =
        st.diags.count (.twice v) +
          (if v ∈ st.scope then vars.count v else vars.count v - 1)) ∧
    (parseTop (fuelFor (tokenize "with x, x: x")) (tokenize "with x, x: x")).1 =
      some (.withDecl ["x", "x"] (.factor .ident "x")) ∧
    semaAST (.withDecl ["x", "x"] (.factor .ident "x")) semaInit =
      ⟨["x"], [.twice "x"], true⟩ :=
  ⟨fun vars st v => semaDecl_scope_mem vars st v,
   fun vars st v => semaDecl_scope_count vars st v,
   fun vars st v => semaDecl_diag_count vars st v,
   by rfl, by rfl⟩

/-- C1: plus and minus bind looser than star and slash, and both operator
tiers are strictly left-associative left-folds of binary-operation nodes:
for any number tokens a, b, c the stream a - b - c parses as (a-b)-c, the
stream a / b / c parses as (a/b)/c, the stream a * b * c parses as
(a*b)*c, and a + b * c parses as a + (b*c); the compiled programs for
1+2*3 and (1+2)*3 write 7 and 9 respectively. -/
theorem c1_precedence_and_left_assoc :
    (∀ a b c : String,
      parseTop
        (fuelFor [⟨.number, a⟩, ⟨.minus, "-"⟩, ⟨.number, b⟩, ⟨.minus, "-"⟩, ⟨.number, c⟩])
        [⟨.number, a⟩, ⟨.minus, "-"⟩, ⟨.number, b⟩, ⟨.minus, "-"⟩, ⟨.number, c⟩] =
      (some (.expr (.binaryOp .minus
          (.binaryOp .minus (.factor .number a) (.factor .number b))
          (.factor .number c))),
       ⟨[], false, false⟩)) ∧
    (∀ a b c : String,
      parseTop
        (fuelFor [⟨.number, a⟩, ⟨.slash, "/"⟩, ⟨.number, b⟩, ⟨.slash, "/"⟩, ⟨.number, c⟩])
        [⟨.number, a⟩, ⟨.slash, "/"⟩, ⟨.number, b⟩, ⟨.slash, "/"⟩, ⟨.number, c⟩] =
      (some (.expr (.binaryOp .div
          (.binaryOp .div (.factor .number a) (.factor .number b))
          (.factor .number c))),
       ⟨[], false, false⟩)) ∧
    (∀ a b c : String,
      parseTop
        (fuelFor [⟨.number, a⟩, ⟨.star, "*"⟩, ⟨.number, b⟩, ⟨.star, "*"⟩, ⟨.number, c⟩])
        [⟨.number, a⟩, ⟨.star, "*"⟩, ⟨.number, b⟩, ⟨.star, "*"⟩, ⟨.number, c⟩] =
      (some (.expr (.binaryOp .mul
          (.binaryOp .mul (.factor .number a) (.factor .number b))
          (.factor .number c))),
       ⟨[], false, false⟩)) ∧
    (∀ a b c : String,
      parseTop
        (fuelFor [⟨.number, a⟩, ⟨.plus, "+"⟩, ⟨.number, b⟩, ⟨.star, "*"⟩, ⟨.number, c⟩])
        [⟨.number, a⟩, ⟨.plus, "+"⟩, ⟨.number, b⟩, ⟨.star, "*"⟩, ⟨.number, c⟩] =
      (some (.expr (.binaryOp .plus (.factor .number a)
          (.binaryOp .mul (.factor .number b) (.factor .number c)))),
       ⟨[], false, false⟩)) ∧
    runStr "1+2*3" (fun _ => 0) = some ⟨[7], 0⟩ ∧
    runStr "(1+2)*3" (fun _ => 0) = some ⟨[9], 0⟩ := by
  refine ⟨fun a b c => ?_, fun a b c => ?_, fun a b c => ?_, fun a b c => ?_, ?_, ?_⟩ <;>
    rfl

/-- C7: a non-null partial tree can coexist with a recorded syntax error:
parsing the input (1 returns the literal tree for 1 while the persistent
failure flag is set, so a null check on the tree alone misses this parse
failure. -/
theorem c7_partial_tree_with_error_flag :
    parseTop (fuelFor (tokenize "(1")) (tokenize "(1") =
      (some (.expr (.factor .number "1")), ⟨[], true, false⟩) := by rfl

/-- C9: error recovery always terminates: the factor-level recovery yields
a suffix of the stream whose first token is a synchronizing token (or the
stream is exhausted, which reads as end-of-input), the top-level recovery
yields a suffix whose first token reads as end-of-input, and parsing
with : 1 records a syntax error and stops exactly at end-of-input with
fuel to spare. -/
theorem c9_error_recovery_terminates :
    (∀ toks : List Token,
      skipToSync toks <:+ toks ∧ ((skipToSync toks).headD eoiTok).kind ∈ syncKinds) ∧
    (∀ toks : List Token,
      skipToEoi toks <:+ toks ∧ ((skipToEoi toks).headD eoiTok).kind = .eoi) ∧
    parseTop (fuelFor (tokenize "with : 1")) (tokenize "with : 1") =
      (none, ⟨[], true, false⟩) :=
  ⟨fun toks => ⟨skipToSync_suffix toks, skipToSync_stops toks⟩,
   fun toks => ⟨skipToEoi_suffix toks, skipToEoi_stops toks⟩, by rfl⟩

/-- C10: the semantic entry point returns false on a null tree, signaling
no semantic error and performing no traversal; a null parse result is
therefore rejected by the driver through its own null check, not by the
semantic phase. -/
theorem c10_semantic_null_returns_false :
    semantic none = false ∧
    (∀ toks : List Token,
      (parseTop (fuelFor toks) toks).1 = none → driver toks = ⟨1, false⟩) := by
  refine ⟨rfl, fun toks h => ?_⟩
  unfold driver
  rcases hp : parseTop (fuelFor toks) toks with ⟨t, ps⟩
  cases t with
  | none => rfl
  | some t =>
    rw [hp] at h
    simp at h

theorem c10_witness : driver (tokenize "(") = ⟨1, false⟩ :=
  c10_semantic_null_returns_false.2 (tokenize "(") (by rfl)

/-- C3 counterexample: the generator does not abort on an identifier whose
name has no entry in the name table; generating code for the bare
identifier x completes, binds x to the null value, and emits the write
call with that null value-handle. -/
theorem c3_counterexample_no_abort :
    cgExpr (.factor .ident "x") cgInit = some ⟨[], [("x", .nullV)], .nullV⟩ ∧
    cgRun (.expr (.factor .ident "x")) =
      some ⟨"main", [.callWrite .nullV, .ret (.constInt 0)]⟩ :=
  ⟨rfl, rfl⟩

/-- C3 amended: when an Identifier node has no entry in the name table,
the generator continues rather than aborting: the subscript lookup
inserts the name with the default null value-handle, the current value
becomes that null handle, and generation proceeds with it (no fatal stop
and no user-facing error). -/
theorem c3_amended_lookup_miss_continues (v : String) (s : CGState)
    (h : lookupName s.nameMap v = none) :
    cgExpr (.factor .ident v) s =
      some { s with nameMap := setName s.nameMap v .nullV, V := .nullV } := by
  simp [cgExpr, h]

theorem c3_witness :
    cgExpr (.factor .ident "x") cgInit =
      some { cgInit with nameMap := setName cgInit.nameMap "x" .nullV, V := .nullV } :=
  c3_amended_lookup_miss_continues "x" cgInit rfl

/-- C4: for a BinaryOp node the generator evaluates the left child, then
the right child, then emits exactly one arithmetic instruction selected by
the operator: the no-signed-wrap add, sub and mul for plus, minus and
star, and the signed truncating division for slash, with nothing else
emitted (in particular no guard around the division); away from the zero
divisor and the overflowing quotient the division primitive truncates
toward zero. -/
theorem c4_binop_lowering (op : BOp) (l r : Expr) (s s1 s2 : CGState)
    (h1 : cgExpr l s = some s1) (h2 : cgExpr r s1 = some s2) :
    cgExpr (.binaryOp op l r) s =
      some { s2 with instrs := s2.instrs ++ [.arith (opMap op) s1.V s2.V],
                     V := .instrRef s2.instrs.length } ∧
    opMap .plus = .nswAdd ∧ opMap .minus = .nswSub ∧
    opMap .mul = .nswMul ∧ opMap .div = .sdiv ∧
    (∀ a b : Int, b ≠ 0 → ¬(a = int32Min ∧ b = -1) →
      evalArith .sdiv a b = some (a.tdiv b)) := by
  refine ⟨?_, rfl, rfl, rfl, rfl, fun a b hb hov => ?_⟩
  · simp [cgExpr, h1, h2, emitVal]
  · simp [evalArith, hb, hov]

theorem c4_witness :
    cgExpr (.binaryOp .div (.factor .number "6") (.factor .number "2")) cgInit =
      some ⟨[.arith .sdiv (.constInt 6) (.constInt 2)], [], .instrRef 0⟩ :=
  ((c4_binop_lowering .div (.factor .number "6") (.factor .number "2") cgInit
      ⟨[], [], .constInt 6⟩ ⟨[], [], .constInt 2⟩ rfl rfl).1).trans (by rfl)

/-- C8: for every NUL-free buffer (and hence every position of a
command-line input, since C strings cannot contain NUL) the lexer next
function is total and never raises an error: it agrees everywhere with the
case analysis of the specification, yielding end-of-input at the buffer
end, the keyword exactly when the maximal letter run equals with and an
identifier otherwise, a number for a maximal digit run, the mapped
punctuation token for the eight punctuation characters, and an unknown
token for any other character. -/
theorem c8_lexer_total_classification (buf : List Char) (h : '\u0000' ∉ buf) :
    nextTok buf = nextSpec buf := by
  unfold nextTok nextSpec
  rw [skipWs_eq_dropWhile]
  cases hd : buf.dropWhile isWhitespace with
  | nil => rfl
  | cons c rest =>
    have hc : ¬c = '\u0000' := by
      intro h0
      apply h
      have hmem : c ∈ buf.dropWhile isWhitespace := by
        rw [hd]
        exact List.mem_cons_self c rest
      have hsub : c ∈ buf := (List.dropWhile_sublist isWhitespace).subset hmem
      rwa [h0] at hsub
    dsimp only
    rw [if_neg hc]
    by_cases hl : isLetter c
    · simp [hl, scanWhile_eq, List.takeWhile_cons, List.dropWhile_cons]
    · by_cases hdg : isDigit c
      · simp [hl, hdg, scanWhile_eq, List.takeWhile_cons, List.dropWhile_cons]
      · simp [hl, hdg]

theorem c8_witness :
    nextTok " with9(".toList = nextSpec " with9(".toList :=
  c8_lexer_total_classification " with9(".toList (by decide)

/-- C5: for every input the driver exits with 0 or 1; it exits with 1
exactly when the parse tree is null, the parser reported an error, or the
semantic check reported an error; and code generation is attempted exactly
when the exit status is 0, that is, only when both phases are clean. -/
theorem c5_driver_gating (s : String) :
    ((driverStr s).exit = 0 ∨ (driverStr s).exit = 1) ∧
    ((driverStr s).exit = 1 ↔
      ((parseTop (fuelFor (tokenize s)) (tokenize s)).1 = none ∨
       (parseTop (fuelFor (tokenize s)) (tokenize s)).2.hasError = true ∨
       semantic (parseTop (fuelFor (tokenize s)) (tokenize s)).1 = true)) ∧
    ((driverStr s).ranCodegen = true ↔ (driverStr s).exit = 0) := by
  unfold driverStr driver
  rcases hp : parseTop (fuelFor (tokenize s)) (tokenize s) with ⟨t, ps⟩
  cases t with
  | none => simp
  | some t =>
    by_cases he : ps.hasError = true
    · simp [he]
    · by_cases hs : semantic (some t) = true
      · simp [he, hs]
      · simp [he, hs]

end Calc
